import Mathlib

/-!
Verification of the MIDI visualizer/player core of JidiPlayer-XMake.

This file gives a shallow embedding, in Lean, of the algorithmic core of
`src/src/Mains/visualizer.cpp` (with `src/header/midi_timing.hpp` and the
variable-length-quantity reader shared with `src/src/Mains/midicore.cpp`),
and proves or refutes the frozen specification claims about it.

Machine integers are modelled as `Nat` (with explicit `% 2^32` / `% 65536`
reductions where C++ integer conversions matter); C++ `double` arithmetic in
the tick/time conversion is modelled by exact rational arithmetic, which for
the quantities involved reduces to `Nat` division (each `static_cast<uint64_t>`
is a floor).  Event streams are lists processed in file order.
-/

/-! ## Data model -/

/-- Embeds `struct NoteEvent` (visualizer.hpp): a paired note interval.
`startTick`/`endTick` are `uint32_t`, the rest `uint8_t`; all modelled as `Nat`. -/
structure NoteEvent where
  startTick : Nat
  endTick : Nat
  note : Nat
  velocity : Nat
  channel : Nat
deriving DecidableEq

/-- `PlaybackEvent::EventType` (visualizer.cpp line 319): `NOTE`, `TEMPO`. -/
inductive EventType where
  | NOTE
  | TEMPO
deriving DecidableEq

/-- Embeds `struct PlaybackEvent` (visualizer.cpp lines 318-340). -/
structure PlaybackEvent where
  type : EventType
  tick : Nat
  status : Nat
  note : Nat
  velocity : Nat
  tempoValue : Nat
deriving DecidableEq

/-! ## Note pairer (loadVisualizerMidiData, lines 999-1128)

The track parser walks the raw byte buffer; for the note-pairing claims we
embed the per-event action on the parser state.  A `TrackEvent` is one decoded
event at its absolute tick: a Note-On (status `0x9n`), a Note-Off (status
`0x8n`), or any other event (which only advances the running tick). -/

/-- One decoded track event with its absolute tick. -/
inductive TrackEvent where
  | noteOn (tick note velocity channel : Nat)
  | noteOff (tick note channel : Nat)
  | other (tick : Nat)
deriving DecidableEq

/-- The absolute tick of a decoded event. -/
def eventTick : TrackEvent → Nat
  | .noteOn tick _ _ _ => tick
  | .noteOff tick _ _ => tick
  | .other tick => tick

/-- Number of Note-On events with velocity > 0 in a stream
(each one pushes exactly one `NoteEvent` in the source). -/
def countNoteOn (events : List TrackEvent) : Nat :=
  events.countP (fun ev => match ev with
    | .noteOn _ _ velocity _ => decide (0 < velocity)
    | _ => false)

/-- Embeds `std::map<std::pair<uint8_t,uint8_t>, size_t> activeNotes`
(visualizer.cpp line 1005) as an association list keyed by (note, channel),
holding at most one entry per key.  Lookup of a key. -/
def lookupActive (k : Nat × Nat) : List ((Nat × Nat) × Nat) → Option Nat
  | [] => none
  | (k', v) :: rest => if k' = k then some v else lookupActive k rest

/-- `activeNotes.erase(it)`: remove the (unique) entry for a key. -/
def eraseActive (k : Nat × Nat) : List ((Nat × Nat) × Nat) → List ((Nat × Nat) × Nat)
  | [] => []
  | (k', v) :: rest => if k' = k then rest else (k', v) :: eraseActive k rest

/-- `activeNotes[{note, channel}] = idx`: insert or overwrite the entry for a key. -/
def insertActive (k : Nat × Nat) (v : Nat) (l : List ((Nat × Nat) × Nat)) :
    List ((Nat × Nat) × Nat) :=
  (k, v) :: eraseActive k l

/-- `tempTrack.notes[idx].endTick = tick` (lines 1066 and 1079): set the
`endTick` of the note at a given index, leaving everything else unchanged. -/
def setEnd (idx tick : Nat) : List NoteEvent → List NoteEvent
  | [] => []
  | n :: rest =>
    match idx with
    | 0 => { n with endTick := tick } :: rest
    | i + 1 => n :: setEnd i tick rest

/-- The note-pairer state inside the track loop: the notes pushed so far
(`tempTrack.notes`), the open-note index map (`activeNotes`), and the running
absolute tick (`tick`, starting at 0). -/
structure PairState where
  notes : List NoteEvent
  active : List ((Nat × Nat) × Nat)
  cur : Nat
deriving DecidableEq

/-- The initial parser state (`tick = 0`, empty note list and map). -/
def initPairState : PairState := { notes := [], active := [], cur := 0 }

/-- `MAX_NOTES_PER_TRACK` (line 923): 100 million notes per track. -/
def MAX_NOTES_PER_TRACK : Nat := 100000000

/-- One step of the note pairer (visualizer.cpp lines 1036-1081):
- Note-On with velocity > 0 pushes a fresh note with default duration
  `endTick = tick + ppq` (line 1053) and records its index in the map,
  overwriting any previous entry for that (note, channel) key;
- Note-On with velocity 0, and Note-Off, close the note whose index the map
  currently holds for the key (setting its `endTick` to the current tick and
  erasing the entry); if the map has no entry the event is ignored;
- any other event only advances the running tick. -/
def pairStep (ppq : Nat) (s : PairState) (ev : TrackEvent) : PairState :=
  match ev with
  | .noteOn tick note velocity channel =>
    if 0 < velocity then
      { notes := s.notes ++
          [{ startTick := tick, endTick := tick + ppq, note := note,
             velocity := velocity, channel := channel }],
        active := insertActive (note, channel) s.notes.length s.active,
        cur := tick }
    else
      match lookupActive (note, channel) s.active with
      | some idx =>
        { notes := setEnd idx tick s.notes,
          active := eraseActive (note, channel) s.active, cur := tick }
      | none => { s with cur := tick }
  | .noteOff tick note channel =>
    match lookupActive (note, channel) s.active with
    | some idx =>
      { notes := setEnd idx tick s.notes,
        active := eraseActive (note, channel) s.active, cur := tick }
    | none => { s with cur := tick }
  | .other tick => { s with cur := tick }

/-- The track loop (line 1007): process events in order while fewer than
`MAX_NOTES_PER_TRACK` notes have been collected; once the cap is reached the
rest of the track is not parsed. -/
def pairRun (ppq : Nat) (s : PairState) : List TrackEvent → PairState
  | [] => s
  | ev :: rest =>
    if s.notes.length < MAX_NOTES_PER_TRACK then pairRun ppq (pairStep ppq s ev) rest
    else s

/-- End-of-track recovery (lines 1119-1122): every note still open is closed
at the track's final tick (the running tick at the end of the loop). -/
def closeRemaining (s : PairState) : List NoteEvent :=
  s.active.foldl (fun notes kv => setEnd kv.2 s.cur notes) s.notes

/-- The full note pairer for one track: run the loop from the initial state,
then close dangling notes. -/
def pairNotes (ppq : Nat) (events : List TrackEvent) : List NoteEvent :=
  closeRemaining (pairRun ppq initPairState events)

/-! ## Tempo handling -/

/-- The tempo filter applied where the running tempo is updated
(visualizer.cpp line 1098 during load and line 1627 during dispatch):
`if (newTempo >= 200000 && newTempo <= 1000000) currentTempo = newTempo;`
out-of-range values leave the previous tempo active. -/
def applyTempoUpdate (currentTempo newTempo : Nat) : Nat :=
  if 200000 ≤ newTempo ∧ newTempo ≤ 1000000 then newTempo else currentTempo

/-- The tempo-map compaction loop body (initializeMidiPlayback, lines
1331-1345): walk the unified event stream; every `TEMPO` event whose value
differs from the last retained value by more than 0.5 percent
(`tempoDiff > lastTempoAdded / 200`) is appended, with no range check. -/
def buildTempoMapGo (lastTempoAdded : Nat) : List PlaybackEvent → List (Nat × Nat)
  | [] => []
  | ev :: rest =>
    match ev.type with
    | .TEMPO =>
      let tempoDiff :=
        if lastTempoAdded < ev.tempoValue then ev.tempoValue - lastTempoAdded
        else lastTempoAdded - ev.tempoValue
      if lastTempoAdded / 200 < tempoDiff then
        (ev.tick, ev.tempoValue) :: buildTempoMapGo ev.tempoValue rest
      else buildTempoMapGo lastTempoAdded rest
    | .NOTE => buildTempoMapGo lastTempoAdded rest

/-- The tempo map built for tick calculation (lines 1327-1345): the entry
`(0, initialTempo)` followed by the compacted tempo events of the stream. -/
def buildTempoMap (initialTempo : Nat) (stream : List PlaybackEvent) : List (Nat × Nat) :=
  (0, initialTempo) :: buildTempoMapGo initialTempo stream

/-! ## Header validation and division clamping -/

/-- The field checks of `validateMidiFile` (lines 388-401) once the magic and
header length have been read: format must be ≤ 2, the track count in
[1, 1000], and the PPQ nonzero — `if (ppq == 0) return false;` makes a zero
division a hard validation failure. -/
def validateMidiFileFields (format numTracks ppq : Nat) : Bool :=
  if 2 < format then false
  else if numTracks = 0 ∨ 1000 < numTracks then false
  else if ppq = 0 then false
  else true

/-- The PPQ adjustment in `loadVisualizerMidiData` (lines 880-891): 0 becomes
the default 480, values above 32767 are clamped to 32767, anything else is
used as-is.  (`ppq` is read from two header bytes, so it is below 65536.) -/
def clampPPQ (ppq : Nat) : Nat :=
  if ppq = 0 then 480
  else if 32767 < ppq then 32767
  else ppq

/-- The division outcome of a load: `loadVisualizerMidiData` first runs
`validateMidiFile` (line 860) and returns failure (`none`) if it rejects;
otherwise the clamped PPQ (`some`) is used for all later timing. -/
def loadDivisionOutcome (format numTracks ppq : Nat) : Option Nat :=
  if validateMidiFileFields format numTracks ppq then some (clampPPQ ppq) else none

/-! ## Visible-range culling (DrawVisualizerNotesDefault, lines 577-594) -/

/-- C++ usual arithmetic conversion of a (possibly negative) `int` value to
`unsigned int` for a comparison against a `uint32_t`: reduction mod 2^32. -/
def intToU32 (x : Int) : Nat := (x % 4294967296).toNat

/-- The per-note culling decision of the default render mode (lines 586-594).
`currentTick` and `viewWindow` are C++ `int`s; `note.startTick`/`note.endTick`
are `uint32_t`, so each mixed comparison converts the `int` side to unsigned:
- line 587: skip when `note.endTick < currentTick - (viewWindow / 4)`;
- line 588: skip when `note.startTick > currentTick + viewWindow`;
- lines 591-593 (only when more than 500000 notes are loaded): skip when
  `note.startTick < currentTick - (viewWindow / 8) && note.endTick < currentTick`.
Returns `true` when the note is skipped (culled). -/
def cullDefaultSkips (totalNotes : Nat) (currentTick viewWindow : Int) (n : NoteEvent) : Bool :=
  if n.endTick < intToU32 (currentTick - viewWindow.tdiv 4) then true
  else if intToU32 (currentTick + viewWindow) < n.startTick then true
  else if 500000 < totalNotes ∧ n.startTick < intToU32 (currentTick - viewWindow.tdiv 8) ∧
      n.endTick < intToU32 currentTick then true
  else false

/-- The brute-force visible filter stated by the claim (spec §8), with the
lookback the code uses (`viewWindow / 4`), in exact integer arithmetic:
`endTick ≥ currentTick − lookback ∧ startTick ≤ currentTick + viewWindow`.
This definition follows the specification text, for comparison with
`cullDefaultSkips` which follows the source. -/
def bruteFilterDefault (currentTick viewWindow : Int) (n : NoteEvent) : Bool :=
  decide (currentTick - viewWindow.tdiv 4 ≤ (n.endTick : Int) ∧
    (n.startTick : Int) ≤ currentTick + viewWindow)

/-! ## Event-stream ordering (PlaybackEvent::operator<, lines 333-339) -/

/-- Embeds `PlaybackEvent::operator<`: at equal tick a `TEMPO` event compares
less than a `NOTE` event; otherwise ticks compare. -/
def pbLt (a b : PlaybackEvent) : Bool :=
  if a.tick = b.tick then decide (a.type = .TEMPO ∧ b.type = .NOTE)
  else decide (a.tick < b.tick)

/-- `std::sort(eventStream.begin(), eventStream.end())` (line 1308):
sorting with respect to `operator<`.  Modelled with `mergeSort` on the
non-strict relation `¬ (b < a)`; any `std::sort` result is sorted in exactly
this sense. -/
def sortEvents (l : List PlaybackEvent) : List PlaybackEvent :=
  l.mergeSort (fun a b => !(pbLt b a))

/-- Rank function characterising `pbLt`: `TEMPO` before `NOTE` within a tick. -/
def pbRank (e : PlaybackEvent) : Nat :=
  2 * e.tick + (match e.type with | .TEMPO => 0 | .NOTE => 1)

/-! ## Variable-length quantity decoding (lines 1008-1021) -/

/-- The delta-time decoding loop of `loadVisualizerMidiData` (lines
1008-1021): read bytes, accumulating the low 7 bits of each big-endian,
stopping at the first byte with the high bit clear, after 4 bytes
(`MAX_VAR_LEN_BYTES`), or at the end of the buffer.  `left` counts the
loop iterations still allowed, i.e. `4 - varLenBytes`. -/
def readDeltaGo (data : List Nat) : Nat → Nat → Nat → Nat × Nat
  | 0, i, delta => (delta, i)
  | left + 1, i, delta =>
    if h : i < data.length then
      let byte := data[i]
      let delta' := delta * 128 + byte % 128
      if left = 0 then (delta', i + 1)
      else if byte < 128 then (delta', i + 1)
      else readDeltaGo data left (i + 1) delta'
    else (delta, i)

/-- Decode one variable-length quantity starting at cursor `i`:
returns the value and the new cursor position. -/
def readDeltaTime (data : List Nat) (i : Nat) : Nat × Nat :=
  readDeltaGo data 4 i 0

/-- Modelled from the spec: the repository parses variable-length quantities
but contains no encoder, so the round-trip claim's `encode` is taken from the
spec's words — 7-bit groups assembled big-endian, each byte except the last
carrying the continuation high bit (§4.1, glossary). -/
def encodeVarLen (v : Nat) : List Nat :=
  if v < 128 then [v]
  else if v < 16384 then [128 + v / 128, v % 128]
  else if v < 2097152 then [128 + v / 16384, 128 + v / 128 % 128, v % 128]
  else [128 + v / 2097152 % 128, 128 + v / 16384 % 128, 128 + v / 128 % 128, v % 128]

/-! ## Pause / resume (main, lines 1531-1546 and 1609-1611) -/

/-- The playback clock state touched by the pause logic: the session start
timestamp, the paused flag, and the timestamp at which the current pause
began.  Timestamps are microsecond instants of the steady clock, as `Int`. -/
structure PlaybackClock where
  playbackStartTime : Int
  isPaused : Bool
  pauseStartTime : Int
deriving DecidableEq

/-- The SPACE-key handler (lines 1531-1546): when paused, resume by moving
`playbackStartTime` forward by the elapsed pause span; otherwise record the
pause timestamp and set the paused flag. -/
def togglePause (now : Int) (s : PlaybackClock) : PlaybackClock :=
  if s.isPaused then
    { s with playbackStartTime := s.playbackStartTime + (now - s.pauseStartTime),
             isPaused := false }
  else
    { s with pauseStartTime := now, isPaused := true }

/-- The virtual clock (line 1611): `elapsedMicroseconds = now − playbackStartTime`.
All event dispatch decisions are functions of this value alone. -/
def elapsedMicros (now : Int) (s : PlaybackClock) : Int :=
  now - s.playbackStartTime

/-! ## Track-chunk length validation (loadVisualizerMidiData, lines 913-997) -/

/-- Outcome of the pre-allocation checks on one `MTrk` chunk. -/
inductive ChunkDecision where
  | process
  | skipChunk
  | stopFile
deriving DecidableEq

/-- The declared-length checks run before any buffer is sized (lines 922-973),
given the declared 32-bit length and the bytes remaining in the file:
- a length at or above 4294967000 (the near-4-GiB corruption pattern, reached
  through the `> 100000000` diagnostic branch) stops the file (line 939);
- a length above `MAX_TRACK_LENGTH` (200 MB) skips the chunk (line 951),
  stopping instead when it is exactly `UINT32_MAX` (line 949, unreachable
  after the previous check);
- a length below `MIN_TRACK_LENGTH` (4) skips the chunk (line 957);
- a length exceeding the remaining file bytes stops the file (line 972);
- otherwise the chunk buffer is allocated and parsed. -/
def trackChunkDecision (trackLength32 remaining : Nat) : ChunkDecision :=
  if (trackLength32 = 4294967295 ∨ 100000000 < trackLength32) ∧ 4294967000 ≤ trackLength32 then
    .stopFile
  else if 200000000 < trackLength32 then
    if trackLength32 = 4294967295 then .stopFile else .skipChunk
  else if trackLength32 < 4 then .skipChunk
  else if remaining < trackLength32 then .stopFile
  else .process

/-- Skeleton of the chunk loop of `loadVisualizerMidiData` (lines 900-1128):
each chunk is given as its declared length, the file bytes remaining at its
position, and the notes its payload would parse to.  A processed chunk
contributes its notes; a skipped chunk contributes nothing; a stop ends the
loop.  The function always pairs the result with `true`: after the loop the
load returns success (line 1185) regardless of skipped or truncated chunks. -/
def loadChunksResult : List (Nat × Nat × List NoteEvent) → List NoteEvent × Bool
  | [] => ([], true)
  | (len, remaining, notes) :: rest =>
    match trackChunkDecision len remaining with
    | .process =>
      let r := loadChunksResult rest
      (notes ++ r.1, r.2)
    | .skipChunk => loadChunksResult rest
    | .stopFile => ([], true)

/-! ## Elapsed-time to tick conversion (calculateTickFromTime, lines 1357-1408)

`MidiTiming::CalculateMicrosecondsPerTick(tempo, ppq)` is
`double(tempo) / double(ValidatePPQ(ppq))` (midi_timing.hpp); the caller's
`int ppq` is converted to `uint16_t` at the call (mod 65536).  The `double`
values are modelled exactly: `static_cast<uint64_t>(ticks * (tempo / ppq))`
is `ticks * tempo / ppq` in `Nat` division, and
`static_cast<uint64_t>(rem / (tempo / ppq))` is `rem * ppq / tempo`. -/

/-- `MidiTiming::ValidatePPQ` (midi_timing.hpp): a PPQ outside [1, 65535]
falls back to the default 480. -/
def validatePPQ (ppq : Nat) : Nat :=
  if ppq < 1 ∨ 65535 < ppq then 480 else ppq

/-- The tempo-map walk of `calculateTickFromTime` (lines 1369-1399), starting
at map index 1: entries with a zero tempo on either side, or with a tick
before the current position, are skipped by the guards; otherwise the segment
either contains the target time (interpolate and return) or is crossed
(subtract its duration and advance).  `vppq` is the validated PPQ. -/
def calcTickGo (vppq : Nat) : List (Nat × Nat) → Nat → Nat → Nat → Nat
  | [], timeRemaining, currentTick, currentTempo =>
    -- lines 1401-1407: remaining time after the last tempo change
    if currentTempo = 0 then currentTick
    else currentTick + timeRemaining * vppq / currentTempo
  | (nextTempoTick, nextTempo) :: rest, timeRemaining, currentTick, currentTempo =>
    if nextTempo = 0 ∨ currentTempo = 0 then
      calcTickGo vppq rest timeRemaining currentTick currentTempo
    else if nextTempoTick < currentTick then
      calcTickGo vppq rest timeRemaining currentTick currentTempo
    else
      let timeToNextTempo := (nextTempoTick - currentTick) * currentTempo / vppq
      if timeRemaining ≤ timeToNextTempo then
        currentTick + timeRemaining * vppq / currentTempo
      else
        calcTickGo vppq rest (timeRemaining - timeToNextTempo) nextTempoTick nextTempo

/-- `calculateTickFromTime` (lines 1357-1408): with an empty tempo map, a
single division by the initial rate (0 when that rate is degenerate);
otherwise the walk above from tick 0 at the initial tempo, skipping the
map's first entry (the loop starts at `i = 1`). -/
def calculateTickFromTime (tempoMap : List (Nat × Nat)) (initialTempo ppq : Nat)
    (elapsedMicroseconds : Nat) : Nat :=
  match tempoMap with
  | [] =>
    if initialTempo = 0 then 0
    else elapsedMicroseconds * validatePPQ (ppq % 65536) / initialTempo
  | _ :: rest => calcTickGo (validatePPQ (ppq % 65536)) rest elapsedMicroseconds 0 initialTempo

/-! ## Invariants of the note pairer -/

/-- Well-formedness of the pairer state used for the start/end ordering: all
collected notes have `startTick ≤ endTick`, and every open-note map entry
points at a valid note whose `startTick` is at most the running tick. -/
def PairInv (s : PairState) : Prop :=
  (∀ n ∈ s.notes, n.startTick ≤ n.endTick) ∧
  (∀ kv ∈ s.active, ∃ n, s.notes[kv.2]? = some n ∧ n.startTick ≤ s.cur)

/-- Well-formedness of the open-note map: each key's entry points at a note
with that (note, channel) key such that no later-pushed note has the same key
— i.e. the map always tracks the most recently opened note for the key — and
the keys are duplicate-free (as in `std::map`). -/
def ActiveInv (s : PairState) : Prop :=
  (∀ k i, lookupActive k s.active = some i →
    ∃ n, s.notes[i]? = some n ∧ (n.note, n.channel) = k ∧
      ∀ j m, i < j → s.notes[j]? = some m → (m.note, m.channel) ≠ k) ∧
  (s.active.map Prod.fst).Nodup

/-! ## Helper lemmas -/

/-- Characterisation of `pbLt` by a numeric rank. -/
theorem pbLt_iff_rank (a b : PlaybackEvent) : pbLt a b = true ↔ pbRank a < pbRank b := by
  cases ha : a.type <;> cases hb : b.type <;>
    simp [pbLt, pbRank, ha, hb] <;>
    by_cases h : a.tick = b.tick <;> simp [h] <;> omega

/-- A list sorted in the `std::sort` sense for `pbLt` is pairwise
tick-non-decreasing with tempo-before-note at equal ticks. -/
theorem pbLt_sorted_pair (a b : PlaybackEvent) (h : pbLt b a = false) :
    a.tick ≤ b.tick ∧ (a.tick = b.tick → ¬(a.type = EventType.NOTE ∧ b.type = EventType.TEMPO)) := by
  rw [Bool.eq_false_iff, Ne, pbLt_iff_rank] at h
  cases ha : a.type <;> cases hb : b.type <;> simp [pbRank, ha, hb] at h ⊢ <;> omega

/-- Every element of the compaction loop's output is the (tick, value) of a
tempo event of the input stream. -/
theorem buildTempoMapGo_mem (stream : List PlaybackEvent) :
    ∀ lastTempoAdded e, e ∈ buildTempoMapGo lastTempoAdded stream →
      ∃ ev, ev ∈ stream ∧ ev.type = EventType.TEMPO ∧ e = (ev.tick, ev.tempoValue) := by
  induction stream with
  | nil => intro last e he; simp [buildTempoMapGo] at he
  | cons ev rest ih =>
    intro last e he
    cases hty : ev.type
    · simp only [buildTempoMapGo, hty] at he
      obtain ⟨ev', h1, h2, h3⟩ := ih last e he
      exact ⟨ev', List.mem_cons_of_mem _ h1, h2, h3⟩
    · simp only [buildTempoMapGo, hty] at he
      by_cases hc : last / 200 <
          (if last < ev.tempoValue then ev.tempoValue - last else last - ev.tempoValue)
      · rw [if_pos hc] at he
        rcases List.mem_cons.mp he with h | h
        · exact ⟨ev, List.mem_cons_self _ _, hty, h⟩
        · obtain ⟨ev', h1, h2, h3⟩ := ih _ e h
          exact ⟨ev', List.mem_cons_of_mem _ h1, h2, h3⟩
      · rw [if_neg hc] at he
        obtain ⟨ev', h1, h2, h3⟩ := ih last e he
        exact ⟨ev', List.mem_cons_of_mem _ h1, h2, h3⟩

/-! ## Claim theorems -/

/-- C2 counterexample: the tempo map built by `initializeMidiPlayback` inserts
a tempo event with value 5000000 µs (far outside 200000..2000000) because the
compaction loop has no range check; and the value 1500000 µs, inside the
claimed range, is rejected by the update filter (whose upper bound is
1000000, not 2000000). -/
theorem c2_counterexample :
    (10, 5000000) ∈ buildTempoMap 500000
      [{ type := .TEMPO, tick := 10, status := 0, note := 0, velocity := 0,
         tempoValue := 5000000 }] ∧
    2000000 < 5000000 ∧
    applyTempoUpdate 500000 1500000 = 500000 ∧
    200000 ≤ 1500000 ∧ (1500000 : Nat) ≤ 2000000 := by
  refine ⟨?_, by norm_num, by decide, by norm_num, by norm_num⟩
  simp [buildTempoMap, buildTempoMapGo]

/-- C2 (amended): the tempo map admits any tempo value — every entry is either
the initial `(0, initialTempo)` or the (tick, value) of some tempo event of
the stream, with no range restriction — while the running-tempo update sites
accept exactly the range [200000, 1000000] µs and otherwise keep the previous
tempo. -/
theorem c2_theorem (initialTempo : Nat) (stream : List PlaybackEvent) :
    (∀ e ∈ buildTempoMap initialTempo stream,
      e = (0, initialTempo) ∨
        ∃ ev, ev ∈ stream ∧ ev.type = EventType.TEMPO ∧ e = (ev.tick, ev.tempoValue)) ∧
    (∀ currentTempo newTempo : Nat,
      (200000 ≤ newTempo → newTempo ≤ 1000000 →
        applyTempoUpdate currentTempo newTempo = newTempo) ∧
      ((newTempo < 200000 ∨ 1000000 < newTempo) →
        applyTempoUpdate currentTempo newTempo = currentTempo)) := by
  constructor
  · intro e he
    rcases List.mem_cons.mp he with h | h
    · exact Or.inl h
    · exact Or.inr (buildTempoMapGo_mem stream initialTempo e h)
  · intro currentTempo newTempo
    constructor
    · intro h1 h2; simp [applyTempoUpdate, h1, h2]
    · intro h; rcases h with h | h <;> simp [applyTempoUpdate] <;> omega

/-- C2 witness: the amended theorem applied to the empty stream and to a
concrete rejected value. -/
theorem c2_witness :
    ((0, 500000) = ((0 : Nat), (500000 : Nat)) ∨
      ∃ ev, ev ∈ ([] : List PlaybackEvent) ∧ ev.type = EventType.TEMPO ∧
        ((0 : Nat), (500000 : Nat)) = (ev.tick, ev.tempoValue)) ∧
    applyTempoUpdate 777 100000 = 777 :=
  ⟨(c2_theorem 500000 []).1 (0, 500000) (by simp [buildTempoMap, buildTempoMapGo]),
   ((c2_theorem 500000 []).2 777 100000).2 (by norm_num)⟩

/-- C3 counterexample: a header with division 0 (and otherwise valid fields)
is rejected by `validateMidiFile`, so the load returns a hard failure —
the claim's "division of 0 is recoverable" fails; the ppq==0 default branch
of `loadVisualizerMidiData` is unreachable. -/
theorem c3_counterexample : loadDivisionOutcome 1 1 0 = none := by decide

/-- C3 (amended): for headers passing the other field checks, a division of 0
makes the load fail hard (validation rejects the file before the clamp can
run), while any nonzero division loads: values above 32767 are clamped to
32767, in-range values pass through, and the division actually used is always
in [1, 32767] — never propagated out of range. -/
theorem c3_theorem (format numTracks ppq : Nat)
    (hf : format ≤ 2) (ht1 : 1 ≤ numTracks) (ht2 : numTracks ≤ 1000) (hp : ppq ≤ 65535) :
    (ppq = 0 → loadDivisionOutcome format numTracks ppq = none) ∧
    (0 < ppq → ∃ d, loadDivisionOutcome format numTracks ppq = some d ∧
      1 ≤ d ∧ d ≤ 32767 ∧ (ppq ≤ 32767 → d = ppq) ∧ (32767 < ppq → d = 32767)) := by
  constructor
  · intro h0
    subst h0
    have hv : validateMidiFileFields format numTracks 0 = false := by
      unfold validateMidiFileFields
      repeat' split
      all_goals simp_all
    simp [loadDivisionOutcome, hv]
  · intro h0
    have hv : validateMidiFileFields format numTracks ppq = true := by
      unfold validateMidiFileFields
      repeat' split
      all_goals first | rfl | (exfalso; omega)
    refine ⟨clampPPQ ppq, by simp [loadDivisionOutcome, hv], ?_, ?_, ?_, ?_⟩
    · simp only [clampPPQ]; split_ifs <;> omega
    · simp only [clampPPQ]; split_ifs <;> omega
    · intro hle; simp only [clampPPQ]; split_ifs <;> omega
    · intro hlt; simp only [clampPPQ]; split_ifs <;> omega

/-- C3 witness: a division of 40000 is clamped to 32767 and the load succeeds. -/
theorem c3_witness :
    (40000 = 0 → loadDivisionOutcome 1 1 40000 = none) ∧
    (0 < 40000 → ∃ d, loadDivisionOutcome 1 1 40000 = some d ∧
      1 ≤ d ∧ d ≤ 32767 ∧ (40000 ≤ 32767 → d = 40000) ∧ (32767 < 40000 → d = 32767)) :=
  c3_theorem 1 1 40000 (by norm_num) (by norm_num) (by norm_num) (by norm_num)

/-- C5: the sorted event stream is non-decreasing in tick and, at equal
ticks, never places a `NOTE` event before a `TEMPO` event (so every tempo
event precedes every note event at its tick); moreover the same holds of any
list that is sorted with respect to `PlaybackEvent::operator<` in the
`std::sort` sense (pairwise, no later element compares less than an earlier
one), which is all the standard guarantees about `std::sort`'s output. -/
theorem c5_theorem (l : List PlaybackEvent) :
    (sortEvents l).Pairwise (fun a b => a.tick ≤ b.tick ∧
      (a.tick = b.tick → ¬(a.type = EventType.NOTE ∧ b.type = EventType.TEMPO))) ∧
    ∀ l' : List PlaybackEvent, l'.Pairwise (fun a b => pbLt b a = false) →
      l'.Pairwise (fun a b => a.tick ≤ b.tick ∧
        (a.tick = b.tick → ¬(a.type = EventType.NOTE ∧ b.type = EventType.TEMPO))) := by
  have key : ∀ l' : List PlaybackEvent, l'.Pairwise (fun a b => pbLt b a = false) →
      l'.Pairwise (fun a b => a.tick ≤ b.tick ∧
        (a.tick = b.tick → ¬(a.type = EventType.NOTE ∧ b.type = EventType.TEMPO))) :=
    fun l' hl' => List.Pairwise.imp (fun hr => pbLt_sorted_pair _ _ hr) hl'
  refine ⟨key _ ?_, key⟩
  have h := @List.sorted_mergeSort PlaybackEvent (fun a b => !(pbLt b a))
    (fun a b c hab hbc => by
      simp only [Bool.not_eq_true', Bool.eq_false_iff, Ne, pbLt_iff_rank] at hab hbc ⊢
      omega)
    (fun a b => by
      simp only [Bool.or_eq_true, Bool.not_eq_true', Bool.eq_false_iff, Ne, pbLt_iff_rank]
      omega)
    l
  exact List.Pairwise.imp (fun hr => by simpa using hr) h

/-- C5 witness: the sortedness consequence extracted on a concrete
already-sorted two-event list. -/
theorem c5_witness :
    ([{ type := EventType.TEMPO, tick := 5, status := 0, note := 0, velocity := 0,
        tempoValue := 600000 },
      { type := EventType.NOTE, tick := 5, status := 144, note := 60, velocity := 64,
        tempoValue := 0 }] : List PlaybackEvent).Pairwise (fun a b => a.tick ≤ b.tick ∧
      (a.tick = b.tick → ¬(a.type = EventType.NOTE ∧ b.type = EventType.TEMPO))) :=
  (c5_theorem []).2 _ (by simp [pbLt])

/-- C8: pausing and resuming moves the session start forward by exactly the
paused span (so the virtual clock `elapsedMicroseconds = now − start` never
jumps), leaves the player unpaused, and a zero-duration pause leaves the
virtual clock — hence every dispatch decision, which is a function of it —
identical to a run that never paused. -/
theorem c8_theorem (s : PlaybackClock) (tPause tResume now : Int)
    (h : s.isPaused = false) :
    (togglePause tResume (togglePause tPause s)).playbackStartTime
        = s.playbackStartTime + (tResume - tPause) ∧
    (togglePause tResume (togglePause tPause s)).isPaused = false ∧
    (tResume = tPause →
      elapsedMicros now (togglePause tResume (togglePause tPause s))
        = elapsedMicros now s) := by
  refine ⟨?_, ?_, fun he => ?_⟩
  · simp [togglePause, h]
  · simp [togglePause, h]
  · subst he
    simp [togglePause, h, elapsedMicros]

/-- C8 witness: a zero-length pause at t = 50 on a session started at 100. -/
theorem c8_witness :
    (togglePause 50 (togglePause 50 ⟨100, false, 0⟩)).playbackStartTime = 100 + (50 - 50) ∧
    (togglePause 50 (togglePause 50 ⟨100, false, 0⟩)).isPaused = false ∧
    ((50 : Int) = 50 →
      elapsedMicros 200 (togglePause 50 (togglePause 50 ⟨100, false, 0⟩))
        = elapsedMicros 200 ⟨100, false, 0⟩) :=
  c8_theorem ⟨100, false, 0⟩ 50 50 200 rfl

/-- C9: a declared track length violating any of the three bounds (absolute
maximum 200000000, minimum 4, bytes remaining in the file) is never processed
— no buffer is allocated for it — and in particular a chunk whose declared
length exceeds the remaining file bytes contributes zero notes while the load
still returns success. -/
theorem c9_theorem (len remaining : Nat) (notes : List NoteEvent)
    (hbad : 200000000 < len ∨ len < 4 ∨ remaining < len) :
    trackChunkDecision len remaining ≠ ChunkDecision.process ∧
    (remaining < len → loadChunksResult [(len, remaining, notes)] = ([], true)) := by
  have hd : trackChunkDecision len remaining ≠ ChunkDecision.process := by
    unfold trackChunkDecision
    repeat' split
    all_goals simp_all
  refine ⟨hd, fun hrem => ?_⟩
  cases hdec : trackChunkDecision len remaining with
  | process => exact absurd hdec hd
  | skipChunk => simp [loadChunksResult, hdec]
  | stopFile => simp [loadChunksResult, hdec]

/-- C9 witness: a chunk declaring 100 bytes with only 10 left in the file. -/
theorem c9_witness :
    trackChunkDecision 100 10 ≠ ChunkDecision.process ∧
    (10 < 100 → loadChunksResult [(100, 10, [])] = ([], true)) :=
  c9_theorem 100 10 [] (by norm_num)

/-- C4 counterexample: at `currentTick = 0`, `viewWindow = 1920` (lookback
`viewWindow/4 = 480`), the note [0, 100] satisfies the claim's brute-force
filter (`100 ≥ 0 − 480` and `0 ≤ 0 + 1920`), yet the code culls it: the
comparison `note.endTick < currentTick - (viewWindow / 4)` converts the
negative `int` −480 to the unsigned value 4294966816, so the in-range note is
skipped and the returned set is not the brute-force filter set. -/
theorem c4_counterexample :
    cullDefaultSkips 1 0 1920
      { startTick := 0, endTick := 100, note := 60, velocity := 64, channel := 0 } = true ∧
    bruteFilterDefault 0 1920
      { startTick := 0, endTick := 100, note := 60, velocity := 64, channel := 0 } = true := by
  constructor
  · decide
  · decide

/-- C4 (amended): the query is a linear scan, not a binary search, and its
tick-level culling agrees with the brute-force filter (lookback
`viewWindow/4`) only in the unsigned-safe regime: when `viewWindow ≥ 0`,
`currentTick ≥ viewWindow/4`, `currentTick + viewWindow < 2^32` and at most
500000 notes are loaded, a note is kept by the culling iff it satisfies the
brute-force filter.  (Outside that regime the int-to-unsigned conversions
wrap, as the counterexample shows; files over 500000 notes get an extra cut,
and the drawn subset is capped in track-iteration order with further
screen-space clipping, not as the globally earliest-starting notes.) -/
theorem c4_theorem (totalNotes : Nat) (currentTick viewWindow : Int)
    (hvw : 0 ≤ viewWindow) (hlb : viewWindow.tdiv 4 ≤ currentTick)
    (hub : currentTick + viewWindow < 4294967296) (hn : totalNotes ≤ 500000)
    (n : NoteEvent) :
    cullDefaultSkips totalNotes currentTick viewWindow n = false ↔
      bruteFilterDefault currentTick viewWindow n = true := by
  have ht4 : 0 ≤ viewWindow.tdiv 4 := Int.tdiv_nonneg hvw (by norm_num)
  have hA : 0 ≤ currentTick - viewWindow.tdiv 4 := by omega
  have hB : 0 ≤ currentTick + viewWindow := by omega
  obtain ⟨a, ha⟩ := Int.eq_ofNat_of_zero_le hA
  obtain ⟨b, hb⟩ := Int.eq_ofNat_of_zero_le hB
  have hnn : ¬ (500000 : Nat) < totalNotes := by omega
  have e1 : intToU32 (currentTick - viewWindow.tdiv 4) = a := by
    unfold intToU32
    rw [Int.emod_eq_of_lt hA (by omega), ha]
    simp
  have e2 : intToU32 (currentTick + viewWindow) = b := by
    unfold intToU32
    rw [Int.emod_eq_of_lt hB (by omega), hb]
    simp
  have hcull : (cullDefaultSkips totalNotes currentTick viewWindow n = false) ↔
      (a ≤ n.endTick ∧ n.startTick ≤ b) := by
    simp only [cullDefaultSkips, e1, e2, hnn, false_and, if_false]
    split_ifs with hc1 hc2 <;> simp <;> omega
  have hbrute : (bruteFilterDefault currentTick viewWindow n = true) ↔
      (a ≤ n.endTick ∧ n.startTick ≤ b) := by
    simp only [bruteFilterDefault, decide_eq_true_eq, ha, hb]
    norm_cast
  rw [hcull, hbrute]

/-- C4 witness: the amended equivalence at a concrete safe position. -/
theorem c4_witness :
    cullDefaultSkips 1 1000 1920
      { startTick := 900, endTick := 1100, note := 60, velocity := 64, channel := 0 } = false ↔
    bruteFilterDefault 1000 1920
      { startTick := 900, endTick := 1100, note := 60, velocity := 64, channel := 0 } = true :=
  c4_theorem 1 1000 1920 (by decide) (by decide) (by decide) (by decide) _

/-- C7: decoding inverts encoding for every value expressible in at most four
7-bit groups: for `v < 2^28`, running the bounds-checked, 4-byte-capped
decoding loop of `loadVisualizerMidiData` over the spec's big-endian
continuation-bit encoding of `v` returns `v` with the cursor past the
encoding. -/
theorem c7_theorem (v : Nat) (h : v < 268435456) :
    readDeltaTime (encodeVarLen v) 0 = (v, (encodeVarLen v).length) := by
  by_cases h1 : v < 128
  · have e : encodeVarLen v = [v] := by simp [encodeVarLen, h1]
    rw [readDeltaTime, e]
    simp [readDeltaGo, Nat.mod_eq_of_lt h1, h1]
  by_cases h2 : v < 16384
  · have e : encodeVarLen v = [128 + v / 128, v % 128] := by
      simp [encodeVarLen, h1, h2]
    have b1 : ¬ (128 + v / 128 < 128) := by omega
    have m1 : (128 + v / 128) % 128 = v / 128 := by
      rw [Nat.add_mod_left]
      exact Nat.mod_eq_of_lt (by omega)
    rw [readDeltaTime, e]
    simp only [readDeltaGo, List.length_cons, List.length_nil, List.getElem_cons_zero,
      List.getElem_cons_succ, m1, b1, if_false]
    norm_num
    omega
  by_cases h3 : v < 2097152
  · have e : encodeVarLen v = [128 + v / 16384, 128 + v / 128 % 128, v % 128] := by
      simp [encodeVarLen, h1, h2, h3]
    have b1 : ¬ (128 + v / 16384 < 128) := by omega
    have m1 : (128 + v / 16384) % 128 = v / 16384 := by
      rw [Nat.add_mod_left]
      exact Nat.mod_eq_of_lt (by omega)
    have b2 : ¬ (128 + v / 128 % 128 < 128) := by omega
    have m2 : (128 + v / 128 % 128) % 128 = v / 128 % 128 := by
      rw [Nat.add_mod_left, Nat.mod_mod_of_dvd _ (dvd_refl 128)]
    rw [readDeltaTime, e]
    simp only [readDeltaGo, List.length_cons, List.length_nil, List.getElem_cons_zero,
      List.getElem_cons_succ, m1, m2, b1, b2, if_false]
    norm_num
    omega
  · have e : encodeVarLen v =
        [128 + v / 2097152 % 128, 128 + v / 16384 % 128, 128 + v / 128 % 128, v % 128] := by
      simp [encodeVarLen, h1, h2, h3]
    have b1 : ¬ (128 + v / 2097152 % 128 < 128) := by omega
    have m1 : (128 + v / 2097152 % 128) % 128 = v / 2097152 % 128 := by
      rw [Nat.add_mod_left, Nat.mod_mod_of_dvd _ (dvd_refl 128)]
    have b2 : ¬ (128 + v / 16384 % 128 < 128) := by omega
    have m2 : (128 + v / 16384 % 128) % 128 = v / 16384 % 128 := by
      rw [Nat.add_mod_left, Nat.mod_mod_of_dvd _ (dvd_refl 128)]
    have b3 : ¬ (128 + v / 128 % 128 < 128) := by omega
    have m3 : (128 + v / 128 % 128) % 128 = v / 128 % 128 := by
      rw [Nat.add_mod_left, Nat.mod_mod_of_dvd _ (dvd_refl 128)]
    rw [readDeltaTime, e]
    simp only [readDeltaGo, List.length_cons, List.length_nil, List.getElem_cons_zero,
      List.getElem_cons_succ, m1, m2, m3, b1, b2, b3, if_false]
    norm_num
    omega

/-- C7 witness: the round trip at the three-byte value 0x12345. -/
theorem c7_witness :
    readDeltaTime (encodeVarLen 74565) 0 = (74565, (encodeVarLen 74565).length) :=
  c7_theorem 74565 (by norm_num)

/-- Helper: the tempo-map walk never returns a tick before its current tick. -/
theorem calcTickGo_ge (vppq : Nat) (rest : List (Nat × Nat)) :
    ∀ timeRemaining currentTick currentTempo : Nat,
      currentTick ≤ calcTickGo vppq rest timeRemaining currentTick currentTempo := by
  induction rest with
  | nil =>
    intro r ct cτ
    simp only [calcTickGo]
    split
    · exact le_refl _
    · exact Nat.le_add_right _ _
  | cons p rest ih =>
    obtain ⟨ntick, ntempo⟩ := p
    intro r ct cτ
    simp only [calcTickGo]
    by_cases hg1 : ntempo = 0 ∨ cτ = 0
    · rw [if_pos hg1]; exact ih r ct cτ
    · rw [if_neg hg1]
      by_cases hg2 : ntick < ct
      · rw [if_pos hg2]; exact ih r ct cτ
      · rw [if_neg hg2]
        by_cases h3 : r ≤ (ntick - ct) * cτ / vppq
        · rw [if_pos h3]; exact Nat.le_add_right _ _
        · rw [if_neg h3]
          exact le_trans (by omega) (ih _ ntick ntempo)

/-- Helper: the tempo-map walk is monotone in the remaining time. -/
theorem calcTickGo_mono (vppq : Nat) (rest : List (Nat × Nat)) :
    ∀ r1 r2 ct cτ : Nat, r1 ≤ r2 →
      calcTickGo vppq rest r1 ct cτ ≤ calcTickGo vppq rest r2 ct cτ := by
  induction rest with
  | nil =>
    intro r1 r2 ct cτ h
    simp only [calcTickGo]
    split
    · exact le_refl _
    · have hdm : r1 * vppq / cτ ≤ r2 * vppq / cτ :=
        Nat.div_le_div_right (Nat.mul_le_mul_right vppq h)
      omega
  | cons p rest ih =>
    obtain ⟨ntick, ntempo⟩ := p
    intro r1 r2 ct cτ h
    simp only [calcTickGo]
    by_cases hg1 : ntempo = 0 ∨ cτ = 0
    · rw [if_pos hg1, if_pos hg1]; exact ih r1 r2 ct cτ h
    · rw [if_neg hg1, if_neg hg1]
      by_cases hg2 : ntick < ct
      · rw [if_pos hg2, if_pos hg2]; exact ih r1 r2 ct cτ h
      · rw [if_neg hg2, if_neg hg2]
        by_cases hr2 : r2 ≤ (ntick - ct) * cτ / vppq
        · rw [if_pos hr2, if_pos (le_trans h hr2)]
          have hdm : r1 * vppq / cτ ≤ r2 * vppq / cτ :=
            Nat.div_le_div_right (Nat.mul_le_mul_right vppq h)
          omega
        · rw [if_neg hr2]
          by_cases hr1 : r1 ≤ (ntick - ct) * cτ / vppq
          · rw [if_pos hr1]
            have hτ : cτ ≠ 0 := by tauto
            have step1 : r1 * vppq ≤ (ntick - ct) * cτ :=
              le_trans (Nat.mul_le_mul_right vppq hr1) (Nat.div_mul_le_self _ _)
            have step2 : r1 * vppq / cτ ≤ ntick - ct := by
              have hd : r1 * vppq / cτ ≤ (ntick - ct) * cτ / cτ :=
                Nat.div_le_div_right step1
              rwa [Nat.mul_div_cancel _ (Nat.pos_of_ne_zero hτ)] at hd
            have hge := calcTickGo_ge vppq rest (r2 - (ntick - ct) * cτ / vppq) ntick ntempo
            omega
          · rw [if_neg hr1]
            exact ih _ _ _ _ (by omega)

/-- C10: the elapsed-time-to-tick conversion is monotone non-decreasing in
the elapsed time, for every tempo map, division and initial tempo — including
maps with zero-tempo, duplicate-tick, or out-of-order entries, which the
guards skip.  (`double` arithmetic is modelled exactly; each
`static_cast<uint64_t>` is a floor, and division by constants of a positive
rate preserves order, so the modelling does not affect monotonicity.) -/
theorem c10_theorem (tempoMap : List (Nat × Nat)) (initialTempo ppq e1 e2 : Nat)
    (h : e1 ≤ e2) :
    calculateTickFromTime tempoMap initialTempo ppq e1 ≤
      calculateTickFromTime tempoMap initialTempo ppq e2 := by
  cases tempoMap with
  | nil =>
    simp only [calculateTickFromTime]
    split
    · exact le_refl 0
    · exact Nat.div_le_div_right (Nat.mul_le_mul_right _ h)
  | cons p rest => exact calcTickGo_mono _ rest e1 e2 0 initialTempo h

/-- C10 witness: monotonicity at two concrete elapsed times over a two-entry
tempo map. -/
theorem c10_witness :
    calculateTickFromTime [(0, 500000), (480, 250000)] 500000 480 100 ≤
      calculateTickFromTime [(0, 500000), (480, 250000)] 500000 480 1000000 :=
  c10_theorem [(0, 500000), (480, 250000)] 500000 480 100 1000000 (by norm_num)

/-- `setEnd` preserves the list length. -/
theorem setEnd_length (idx tick : Nat) (l : List NoteEvent) :
    (setEnd idx tick l).length = l.length := by
  induction l generalizing idx with
  | nil => simp [setEnd]
  | cons n rest ih =>
    cases idx with
    | zero => simp [setEnd]
    | succ i => simp [setEnd, ih]

/-- `setEnd` leaves entries at other indices unchanged. -/
theorem setEnd_getElem?_ne (idx tick j : Nat) (l : List NoteEvent) (h : j ≠ idx) :
    (setEnd idx tick l)[j]? = l[j]? := by
  induction l generalizing idx j with
  | nil => simp [setEnd]
  | cons n rest ih =>
    cases idx with
    | zero =>
      cases j with
      | zero => exact absurd rfl h
      | succ j' => simp [setEnd]
    | succ i =>
      cases j with
      | zero => simp [setEnd]
      | succ j' => simp only [setEnd, List.getElem?_cons_succ]; exact ih i j' (by omega)

/-- `setEnd` rewrites exactly the `endTick` of the entry at its index. -/
theorem setEnd_getElem?_eq (idx tick : Nat) (l : List NoteEvent) :
    (setEnd idx tick l)[idx]? = (l[idx]?).map (fun n => { n with endTick := tick }) := by
  induction l generalizing idx with
  | nil => simp [setEnd]
  | cons n rest ih =>
    cases idx with
    | zero => simp [setEnd]
    | succ i => simp only [setEnd, List.getElem?_cons_succ]; exact ih i

/-- A step never changes the note count except for a positive-velocity
Note-On, which adds exactly one note. -/
theorem pairStep_notes_length (ppq : Nat) (s : PairState) (ev : TrackEvent) :
    (pairStep ppq s ev).notes.length = s.notes.length +
      (match ev with
       | .noteOn _ _ velocity _ => if 0 < velocity then 1 else 0
       | _ => 0) := by
  cases ev with
  | noteOn t nt v ch =>
    by_cases hv : 0 < v
    · simp [pairStep, hv]
    · simp only [pairStep, if_neg hv, if_neg hv]
      cases hl : lookupActive (nt, ch) s.active <;> simp [setEnd_length, hv]
  | noteOff t nt ch =>
    cases hl : lookupActive (nt, ch) s.active <;> simp [pairStep, hl, setEnd_length]
  | other t => simp [pairStep]

/-- A step always sets the running tick to the event's tick. -/
theorem pairStep_cur (ppq : Nat) (s : PairState) (ev : TrackEvent) :
    (pairStep ppq s ev).cur = eventTick ev := by
  cases ev with
  | noteOn t nt v ch =>
    by_cases hv : 0 < v
    · simp [pairStep, hv, eventTick]
    · simp only [pairStep, if_neg hv, eventTick]
      cases hl : lookupActive (nt, ch) s.active <;> simp
  | noteOff t nt ch =>
    cases hl : lookupActive (nt, ch) s.active <;> simp [pairStep, hl, eventTick]
  | other t => simp [pairStep, eventTick]

/-- The loop collects `min (collected + Note-Ons) cap` notes: each
positive-velocity Note-On adds one note until the cap stops parsing. -/
theorem pairRun_length (ppq : Nat) (events : List TrackEvent) :
    ∀ s : PairState, s.notes.length ≤ MAX_NOTES_PER_TRACK →
      (pairRun ppq s events).notes.length =
        min (s.notes.length + countNoteOn events) MAX_NOTES_PER_TRACK := by
  induction events with
  | nil => intro s h; simp [pairRun, countNoteOn]; omega
  | cons ev rest ih =>
    intro s h
    unfold pairRun
    by_cases hlt : s.notes.length < MAX_NOTES_PER_TRACK
    · rw [if_pos hlt]
      have hstep := pairStep_notes_length ppq s ev
      have hcap : (pairStep ppq s ev).notes.length ≤ MAX_NOTES_PER_TRACK := by
        rw [hstep]; cases ev <;> simp_all <;> split <;> omega
      rw [ih _ hcap, hstep]
      cases ev with
      | noteOn t nt v ch =>
        simp only [countNoteOn, List.countP_cons]
        by_cases hv : 0 < v <;> simp [countNoteOn, hv] <;> omega
      | noteOff t nt ch => simp [countNoteOn, List.countP_cons]
      | other t => simp [countNoteOn, List.countP_cons]
    · rw [if_neg hlt]
      have : s.notes.length = MAX_NOTES_PER_TRACK := by omega
      omega

/-- The end-of-track closing pass does not change the note count. -/
theorem foldl_setEnd_length (cur : Nat) (act : List ((Nat × Nat) × Nat)) :
    ∀ notes : List NoteEvent,
      (act.foldl (fun ns kv => setEnd kv.2 cur ns) notes).length = notes.length := by
  induction act with
  | nil => intro notes; rfl
  | cons kv act ih =>
    intro notes
    simp only [List.foldl_cons]
    rw [ih, setEnd_length]

/-- The pairer's output size: one note per positive-velocity Note-On, capped. -/
theorem pairNotes_length (ppq : Nat) (events : List TrackEvent) :
    (pairNotes ppq events).length = min (countNoteOn events) MAX_NOTES_PER_TRACK := by
  unfold pairNotes closeRemaining
  rw [foldl_setEnd_length]
  have h := pairRun_length ppq events initPairState (by simp [initPairState, MAX_NOTES_PER_TRACK])
  simpa [initPairState] using h

/-- Counting Note-Ons in a replicated stream. -/
theorem countNoteOn_replicate (count t nt v ch : Nat) (hv : 0 < v) :
    countNoteOn (List.replicate count (TrackEvent.noteOn t nt v ch)) = count := by
  induction count with
  | zero => rfl
  | succ k ih =>
    simp only [List.replicate_succ, countNoteOn, List.countP_cons] at ih ⊢
    simp [ih, hv]

/-- A successful lookup means the entry is in the map. -/
theorem lookupActive_mem (k : Nat × Nat) (l : List ((Nat × Nat) × Nat)) (v : Nat)
    (h : lookupActive k l = some v) : (k, v) ∈ l := by
  induction l with
  | nil => simp [lookupActive] at h
  | cons kv rest ih =>
    obtain ⟨k', v'⟩ := kv
    simp only [lookupActive] at h
    split at h
    · cases h
      subst_vars
      exact List.mem_cons_self _ _
    · exact List.mem_cons_of_mem _ (ih h)

/-- Erasing a key keeps only entries of the original map. -/
theorem eraseActive_subset (k : Nat × Nat) (l : List ((Nat × Nat) × Nat)) :
    ∀ kv ∈ eraseActive k l, kv ∈ l := by
  induction l with
  | nil => simp [eraseActive]
  | cons hd rest ih =>
    obtain ⟨k', v'⟩ := hd
    intro kv hkv
    simp only [eraseActive] at hkv
    split at hkv
    · exact List.mem_cons_of_mem _ hkv
    · rcases List.mem_cons.mp hkv with h | h
      · exact h ▸ List.mem_cons_self _ _
      · exact List.mem_cons_of_mem _ (ih kv h)

/-- One pairer step preserves the start/end well-formedness, provided the
event's tick is not before the running tick (ticks are running delta sums). -/
theorem pairStep_inv (ppq : Nat) (s : PairState) (ev : TrackEvent)
    (hinv : PairInv s) (hcur : s.cur ≤ eventTick ev) : PairInv (pairStep ppq s ev) := by
  obtain ⟨h1, h2⟩ := hinv
  have close_case : ∀ t nt ch idx, lookupActive (nt, ch) s.active = some idx →
      s.cur ≤ t →
      PairInv { notes := setEnd idx t s.notes,
                active := eraseActive (nt, ch) s.active, cur := t } := by
    intro t nt ch idx hl hle
    obtain ⟨n0, hget0, hle0⟩ := h2 _ (lookupActive_mem _ _ _ hl)
    constructor
    · intro n hn
      obtain ⟨j, hj⟩ := List.mem_iff_getElem?.mp hn
      by_cases hji : j = idx
      · subst hji
        rw [setEnd_getElem?_eq, hget0] at hj
        cases hj
        simpa using le_trans hle0 hle
      · rw [setEnd_getElem?_ne _ _ _ _ hji] at hj
        exact h1 n (List.mem_iff_getElem?.mpr ⟨j, hj⟩)
    · intro kv hkv
      obtain ⟨n, hget, hn⟩ := h2 kv (eraseActive_subset _ _ kv hkv)
      by_cases hji : kv.2 = idx
      · refine ⟨{ n with endTick := t }, ?_, ?_⟩
        · rw [hji, setEnd_getElem?_eq, hget0]
          rw [hji, hget0] at hget
          cases hget
          rfl
        · simpa using le_trans hn hle
      · exact ⟨n, by rw [setEnd_getElem?_ne _ _ _ _ hji]; exact hget, le_trans hn hle⟩
  cases ev with
  | noteOn t nt v ch =>
    simp only [eventTick] at hcur
    by_cases hv : 0 < v
    · simp only [pairStep, if_pos hv]
      constructor
      · intro n hn
        rcases List.mem_append.mp hn with h | h
        · exact h1 n h
        · simp only [List.mem_singleton] at h
          subst h
          simp
      · intro kv hkv
        simp only [insertActive] at hkv
        rcases List.mem_cons.mp hkv with h | h
        · subst h
          refine ⟨{ startTick := t, endTick := t + ppq, note := nt,
                    velocity := v, channel := ch }, ?_, ?_⟩
          · simp
          · simp
        · obtain ⟨n, hget, hn⟩ := h2 kv (eraseActive_subset _ _ kv h)
          have hlt : kv.2 < s.notes.length := by
            by_contra hge
            rw [List.getElem?_eq_none (by omega)] at hget
            cases hget
          refine ⟨n, ?_, le_trans hn hcur⟩
          simp only [List.getElem?_append, if_pos hlt]
          exact hget
    · simp only [pairStep, if_neg hv]
      cases hl : lookupActive (nt, ch) s.active with
      | some idx => exact close_case t nt ch idx hl hcur
      | none =>
        refine ⟨h1, fun kv hkv => ?_⟩
        obtain ⟨n, hget, hn⟩ := h2 kv hkv
        exact ⟨n, hget, le_trans hn hcur⟩
  | noteOff t nt ch =>
    simp only [eventTick] at hcur
    cases hl : lookupActive (nt, ch) s.active with
    | some idx =>
      have h := close_case t nt ch idx hl hcur
      simpa [pairStep, hl] using h
    | none =>
      simp only [pairStep, hl]
      refine ⟨h1, fun kv hkv => ?_⟩
      obtain ⟨n, hget, hn⟩ := h2 kv hkv
      exact ⟨n, hget, le_trans hn hcur⟩
  | other t =>
    simp only [eventTick] at hcur
    simp only [pairStep]
    refine ⟨h1, fun kv hkv => ?_⟩
    obtain ⟨n, hget, hn⟩ := h2 kv hkv
    exact ⟨n, hget, le_trans hn hcur⟩

/-- The loop preserves the start/end well-formedness along a tick-monotone
event stream whose first tick is at least the running tick. -/
theorem pairRun_inv (ppq : Nat) (events : List TrackEvent) :
    ∀ s : PairState, PairInv s →
      List.Chain' (fun a b => a ≤ b) (s.cur :: events.map eventTick) →
      PairInv (pairRun ppq s events) := by
  induction events with
  | nil => intro s h _; exact h
  | cons ev rest ih =>
    intro s h hchain
    unfold pairRun
    by_cases hlt : s.notes.length < MAX_NOTES_PER_TRACK
    · rw [if_pos hlt]
      rw [List.map_cons, List.chain'_cons] at hchain
      refine ih _ (pairStep_inv ppq s ev h hchain.1) ?_
      rw [pairStep_cur]
      exact hchain.2
    · rw [if_neg hlt]
      exact h

/-- The closing pass only sets end ticks (at the final tick) of valid open
notes, so it keeps every note's start at or before its end. -/
theorem foldl_setEnd_le (cur : Nat) (act : List ((Nat × Nat) × Nat)) :
    ∀ notes : List NoteEvent,
      (∀ n ∈ notes, n.startTick ≤ n.endTick) →
      (∀ kv ∈ act, ∀ n, notes[kv.2]? = some n → n.startTick ≤ cur) →
      ∀ n ∈ act.foldl (fun ns kv => setEnd kv.2 cur ns) notes, n.startTick ≤ n.endTick := by
  induction act with
  | nil => intro notes h1 _ n hn; exact h1 n hn
  | cons kv act ih =>
    intro notes h1 h2
    simp only [List.foldl_cons]
    refine ih (setEnd kv.2 cur notes) ?_ ?_
    · intro n hn
      obtain ⟨j, hj⟩ := List.mem_iff_getElem?.mp hn
      by_cases hji : j = kv.2
      · subst hji
        rw [setEnd_getElem?_eq] at hj
        obtain ⟨n0, hn0, rfl⟩ := Option.map_eq_some'.mp hj
        simpa using h2 kv (List.mem_cons_self _ _) n0 hn0
      · rw [setEnd_getElem?_ne _ _ _ _ hji] at hj
        exact h1 n (List.mem_iff_getElem?.mpr ⟨j, hj⟩)
    · intro kv' hkv' n hget
      by_cases hji : kv'.2 = kv.2
      · rw [hji, setEnd_getElem?_eq] at hget
        obtain ⟨n0, hn0, rfl⟩ := Option.map_eq_some'.mp hget
        have := h2 kv' (List.mem_cons_of_mem _ hkv') n0 (hji ▸ hn0)
        simpa using this
      · rw [setEnd_getElem?_ne _ _ _ _ hji] at hget
        exact h2 kv' (List.mem_cons_of_mem _ hkv') n hget

/-- C6 counterexample: with 100000001 positive-velocity Note-On events the
parser stops at the `MAX_NOTES_PER_TRACK` cap and produces only 100000000
notes, so the produced-note count does not equal the Note-On count and notes
can be dropped, refuting the claim's unrestricted count equality. -/
theorem c6_counterexample :
    (pairNotes 480 (List.replicate 100000001 (TrackEvent.noteOn 0 60 1 0))).length ≠
      countNoteOn (List.replicate 100000001 (TrackEvent.noteOn 0 60 1 0)) := by
  have h1 := pairNotes_length 480 (List.replicate 100000001 (TrackEvent.noteOn 0 60 1 0))
  have h2 := countNoteOn_replicate 100000001 0 60 1 0 (by norm_num)
  rw [h1, h2]
  simp [MAX_NOTES_PER_TRACK]

/-- C6 (amended): along any tick-monotone interleaving of events (ticks are
running sums of unsigned deltas in the source), every produced note satisfies
`startTick ≤ endTick` — dangling notes are closed at the track's final tick —
and the number of produced notes is `min(count of Note-On(velocity>0) events,
100000000)`: one note per Note-On below the cap, with parsing stopping at the
cap, so below the cap no note is ever dropped. -/
theorem c6_theorem (ppq : Nat) (events : List TrackEvent)
    (hmono : List.Chain' (fun a b => eventTick a ≤ eventTick b) events) :
    (∀ n ∈ pairNotes ppq events, n.startTick ≤ n.endTick) ∧
    (pairNotes ppq events).length = min (countNoteOn events) MAX_NOTES_PER_TRACK := by
  refine ⟨?_, pairNotes_length ppq events⟩
  have hchain : List.Chain' (fun a b => a ≤ b)
      (initPairState.cur :: events.map eventTick) := by
    rw [List.chain'_cons']
    exact ⟨fun b _ => Nat.zero_le b, (List.chain'_map eventTick).mpr hmono⟩
  have hinv := pairRun_inv ppq events initPairState ⟨by simp [initPairState], by simp [initPairState]⟩ hchain
  obtain ⟨h1, h2⟩ := hinv
  unfold pairNotes closeRemaining
  refine foldl_setEnd_le _ _ _ h1 ?_
  intro kv hkv n hget
  obtain ⟨n', hget', hle'⟩ := h2 kv hkv
  rw [hget] at hget'
  cases hget'
  exact hle'

/-- C6 witness: a small monotone track with one note closed by its Note-Off
and one left dangling. -/
theorem c6_witness :
    (∀ n ∈ pairNotes 480 [TrackEvent.noteOn 0 60 64 0, TrackEvent.noteOn 10 62 64 0,
        TrackEvent.noteOff 480 60 0], n.startTick ≤ n.endTick) ∧
    (pairNotes 480 [TrackEvent.noteOn 0 60 64 0, TrackEvent.noteOn 10 62 64 0,
        TrackEvent.noteOff 480 60 0]).length =
      min (countNoteOn [TrackEvent.noteOn 0 60 64 0, TrackEvent.noteOn 10 62 64 0,
        TrackEvent.noteOff 480 60 0]) MAX_NOTES_PER_TRACK :=
  c6_theorem 480 _ (by simp [List.chain'_cons, eventTick])

/-- Lookup misses keys not in the map. -/
theorem lookupActive_eq_none (k : Nat × Nat) (l : List ((Nat × Nat) × Nat))
    (h : k ∉ l.map Prod.fst) : lookupActive k l = none := by
  induction l with
  | nil => rfl
  | cons kv rest ih =>
    obtain ⟨k', v'⟩ := kv
    simp only [List.map_cons, List.mem_cons] at h
    push_neg at h
    simp only [lookupActive]
    rw [if_neg (fun he : k' = k => h.1 he.symm)]
    exact ih h.2

/-- Erasure keeps the key set inside the original key set. -/
theorem keys_eraseActive_subset (k k' : Nat × Nat) (l : List ((Nat × Nat) × Nat))
    (h : k' ∈ (eraseActive k l).map Prod.fst) : k' ∈ l.map Prod.fst := by
  obtain ⟨kv, hkv, rfl⟩ := List.mem_map.mp h
  exact List.mem_map.mpr ⟨kv, eraseActive_subset _ _ kv hkv, rfl⟩

/-- Erasure preserves duplicate-freedom of the keys. -/
theorem eraseActive_nodup (k : Nat × Nat) (l : List ((Nat × Nat) × Nat))
    (h : (l.map Prod.fst).Nodup) : ((eraseActive k l).map Prod.fst).Nodup := by
  induction l with
  | nil => simp [eraseActive]
  | cons kv rest ih =>
    obtain ⟨k', v'⟩ := kv
    simp only [List.map_cons, List.nodup_cons] at h
    simp only [eraseActive]
    split
    · exact h.2
    · simp only [List.map_cons, List.nodup_cons]
      exact ⟨fun hm => h.1 (keys_eraseActive_subset k k' rest hm), ih h.2⟩

/-- After erasing a key from a duplicate-free map, the key is gone. -/
theorem not_mem_keys_eraseActive (k : Nat × Nat) (l : List ((Nat × Nat) × Nat))
    (h : (l.map Prod.fst).Nodup) : k ∉ (eraseActive k l).map Prod.fst := by
  induction l with
  | nil => simp [eraseActive]
  | cons kv rest ih =>
    obtain ⟨k', v'⟩ := kv
    simp only [List.map_cons, List.nodup_cons] at h
    simp only [eraseActive]
    split
    · rename_i he
      subst he
      exact fun hm => h.1 hm
    · rename_i he
      simp only [List.map_cons, List.mem_cons]
      push_neg
      exact ⟨fun hk => he hk.symm, ih h.2⟩

/-- Lookup after erasing a key (for a duplicate-free map): the erased key is
gone, every other key unchanged. -/
theorem lookupActive_eraseActive (k k' : Nat × Nat) (l : List ((Nat × Nat) × Nat))
    (hnd : (l.map Prod.fst).Nodup) :
    lookupActive k' (eraseActive k l) = if k' = k then none else lookupActive k' l := by
  induction l with
  | nil =>
    simp only [eraseActive, lookupActive]
    split <;> rfl
  | cons kv rest ih =>
    obtain ⟨k0, v0⟩ := kv
    simp only [List.map_cons, List.nodup_cons] at hnd
    simp only [eraseActive]
    by_cases h0 : k0 = k
    · rw [if_pos h0]
      by_cases hk : k' = k
      · rw [if_pos hk]
        refine lookupActive_eq_none _ _ ?_
        rw [hk, ← h0]
        exact hnd.1
      · rw [if_neg hk]
        simp only [lookupActive]
        rw [if_neg (fun hq : k0 = k' => hk (hq.symm.trans h0))]
    · rw [if_neg h0]
      simp only [lookupActive]
      by_cases hq : k0 = k'
      · rw [if_pos hq, if_pos hq, if_neg (fun he : k' = k => h0 (hq.symm ▸ he))]
      · rw [if_neg hq, if_neg hq, ih hnd.2]

/-- Lookup after inserting a key (for a duplicate-free map): the inserted key
maps to the new index, every other key unchanged. -/
theorem lookupActive_insertActive (k k' : Nat × Nat) (v : Nat)
    (l : List ((Nat × Nat) × Nat)) (hnd : (l.map Prod.fst).Nodup) :
    lookupActive k' (insertActive k v l) = if k' = k then some v else lookupActive k' l := by
  unfold insertActive
  simp only [lookupActive]
  by_cases hq : k = k'
  · rw [if_pos hq, if_pos hq.symm]
  · rw [if_neg hq, if_neg (fun h : k' = k => hq h.symm),
      lookupActive_eraseActive k k' l hnd, if_neg (fun h : k' = k => hq h.symm)]

/-- Insertion preserves duplicate-freedom of the keys. -/
theorem insertActive_nodup (k : Nat × Nat) (v : Nat) (l : List ((Nat × Nat) × Nat))
    (hnd : (l.map Prod.fst).Nodup) : ((insertActive k v l).map Prod.fst).Nodup := by
  unfold insertActive
  simp only [List.map_cons, List.nodup_cons]
  exact ⟨not_mem_keys_eraseActive k l hnd, eraseActive_nodup k l hnd⟩

/-- One pairer step preserves the open-note map well-formedness: the tracked
index for each key always points at the most recently opened note with that
key, and keys stay duplicate-free. -/
theorem pairStep_activeInv (ppq : Nat) (s : PairState) (ev : TrackEvent)
    (hinv : ActiveInv s) : ActiveInv (pairStep ppq s ev) := by
  obtain ⟨h1, h2⟩ := hinv
  have close_case : ∀ t nt ch idx, lookupActive (nt, ch) s.active = some idx →
      ActiveInv { notes := setEnd idx t s.notes,
                  active := eraseActive (nt, ch) s.active, cur := t } := by
    intro t nt ch idx hl
    obtain ⟨n0, hget0, hkey0, hmax0⟩ := h1 _ _ hl
    constructor
    · intro k i hi
      rw [lookupActive_eraseActive _ _ _ h2] at hi
      split at hi
      · cases hi
      · rename_i hkne
        obtain ⟨n, hget, hkey, hmax⟩ := h1 k i hi
        have hine : i ≠ idx := by
          intro he
          subst he
          rw [hget0] at hget
          cases hget
          exact hkne (hkey ▸ hkey0)
        refine ⟨n, ?_, hkey, ?_⟩
        · rw [setEnd_getElem?_ne _ _ _ _ hine]
          exact hget
        · intro j m hij hjm
          by_cases hji : j = idx
          · subst hji
            rw [setEnd_getElem?_eq, hget0] at hjm
            simp only [Option.map_some'] at hjm
            cases hjm
            intro hk
            apply hkne
            rw [← hk]
            exact hkey0
          · rw [setEnd_getElem?_ne _ _ _ _ hji] at hjm
            exact hmax j m hij hjm
    · exact eraseActive_nodup _ _ h2
  cases ev with
  | noteOn t nt v ch =>
    by_cases hv : 0 < v
    · simp only [pairStep, if_pos hv]
      constructor
      · intro k i hi
        rw [lookupActive_insertActive _ _ _ _ h2] at hi
        split at hi
        · rename_i hkk
          cases hi
          refine ⟨{ startTick := t, endTick := t + ppq, note := nt,
                    velocity := v, channel := ch }, ?_, ?_, ?_⟩
          · simp
          · rw [hkk]
          · intro j m hij hjm
            dsimp only at hjm
            rw [List.getElem?_eq_none (by simp; omega)] at hjm
            cases hjm
        · rename_i hkk
          obtain ⟨n, hget, hkey, hmax⟩ := h1 k i hi
          have hlt : i < s.notes.length := by
            by_contra hge
            rw [List.getElem?_eq_none (by omega)] at hget
            cases hget
          refine ⟨n, ?_, hkey, ?_⟩
          · simp only [List.getElem?_append, if_pos hlt]
            exact hget
          · intro j m hij hjm
            rcases Nat.lt_trichotomy j s.notes.length with hjl | hje | hjg
            · simp only [List.getElem?_append, if_pos hjl] at hjm
              exact hmax j m hij hjm
            · subst hje
              simp only [List.getElem?_concat_length] at hjm
              cases hjm
              intro hk
              exact hkk (by rw [← hk])
            · dsimp only at hjm
              rw [List.getElem?_eq_none (by simp; omega)] at hjm
              cases hjm
      · exact insertActive_nodup _ _ _ h2
    · simp only [pairStep, if_neg hv]
      cases hl : lookupActive (nt, ch) s.active with
      | some idx => exact close_case t nt ch idx hl
      | none => exact ⟨h1, h2⟩
  | noteOff t nt ch =>
    cases hl : lookupActive (nt, ch) s.active with
    | some idx =>
      simp only [pairStep, hl]
      exact close_case t nt ch idx hl
    | none =>
      simp only [pairStep, hl]
      exact ⟨h1, h2⟩
  | other t => exact ⟨h1, h2⟩

/-- The loop preserves the open-note map well-formedness. -/
theorem pairRun_activeInv (ppq : Nat) (events : List TrackEvent) :
    ∀ s : PairState, ActiveInv s → ActiveInv (pairRun ppq s events) := by
  induction events with
  | nil => intro s h; exact h
  | cons ev rest ih =>
    intro s h
    unfold pairRun
    by_cases hlt : s.notes.length < MAX_NOTES_PER_TRACK
    · rw [if_pos hlt]
      exact ih _ (pairStep_activeInv ppq s ev h)
    · rw [if_neg hlt]
      exact h

/-- C1 counterexample: two overlapping Note-Ons on (pitch 60, channel 0) at
ticks 0 and 10, then one Note-Off at tick 20.  The claim requires the
oldest open note (index 0) to be closed at tick 20; the code instead closes
the newest (index 1): the map entry was overwritten by the retrigger, so the
first note keeps its default `endTick = 0 + ppq = 480`. -/
theorem c1_counterexample :
    ((pairNotes 480 [TrackEvent.noteOn 0 60 64 0, TrackEvent.noteOn 10 60 64 0,
        TrackEvent.noteOff 20 60 0])[0]?).map NoteEvent.endTick ≠ some 20 ∧
    ((pairNotes 480 [TrackEvent.noteOn 0 60 64 0, TrackEvent.noteOn 10 60 64 0,
        TrackEvent.noteOff 20 60 0])[1]?).map NoteEvent.endTick = some 20 := by
  constructor
  · decide
  · decide

/-- C1 (amended): when the pairer processes a Note-Off for a key with no map
entry, the collected notes and the open-note map are unchanged (the event is
ignored); when the map holds an index for the key, that index points at the
**most recently opened** note with that key (no later-pushed note shares the
key — the per-key map holds a single index, overwritten on retrigger, so it is
LIFO-most-recent, not FIFO-oldest), and the step sets exactly that note's
`endTick` to the current tick and erases the entry. -/
theorem c1_theorem (ppq : Nat) (events : List TrackEvent) (t note channel : Nat) :
    (lookupActive (note, channel) (pairRun ppq initPairState events).active = none →
      (pairStep ppq (pairRun ppq initPairState events)
          (TrackEvent.noteOff t note channel)).notes
        = (pairRun ppq initPairState events).notes ∧
      (pairStep ppq (pairRun ppq initPairState events)
          (TrackEvent.noteOff t note channel)).active
        = (pairRun ppq initPairState events).active) ∧
    (∀ idx, lookupActive (note, channel) (pairRun ppq initPairState events).active = some idx →
      ∃ n, (pairRun ppq initPairState events).notes[idx]? = some n ∧
        n.note = note ∧ n.channel = channel ∧
        (∀ j m, idx < j → (pairRun ppq initPairState events).notes[j]? = some m →
          ¬(m.note = note ∧ m.channel = channel)) ∧
        (pairStep ppq (pairRun ppq initPairState events)
            (TrackEvent.noteOff t note channel)).notes
          = setEnd idx t (pairRun ppq initPairState events).notes ∧
        (pairStep ppq (pairRun ppq initPairState events)
            (TrackEvent.noteOff t note channel)).active
          = eraseActive (note, channel) (pairRun ppq initPairState events).active) := by
  have hinv := pairRun_activeInv ppq events initPairState
    ⟨fun k i hi => by simp [initPairState, lookupActive] at hi, by simp [initPairState]⟩
  obtain ⟨hA, hnd⟩ := hinv
  constructor
  · intro hnone
    simp [pairStep, hnone]
  · intro idx hsome
    obtain ⟨n, hget, hkey, hmax⟩ := hA _ _ hsome
    have hkey' : n.note = note ∧ n.channel = channel := by
      have := hkey
      rw [Prod.mk.injEq] at this
      exact this
    refine ⟨n, hget, hkey'.1, hkey'.2, ?_, ?_, ?_⟩
    · intro j m hij hjm hcontra
      exact hmax j m hij hjm (by rw [hcontra.1, hcontra.2])
    · simp only [pairStep, hsome]
    · simp only [pairStep, hsome]

/-- C1 witness: the two branches at a concrete one-note state — a Note-Off
for an unopened key is ignored, and a Note-Off for the opened key closes the
tracked (single, most recent) note. -/
theorem c1_witness :
    ((pairStep 480 (pairRun 480 initPairState [TrackEvent.noteOn 0 60 64 0])
        (TrackEvent.noteOff 5 61 0)).notes
      = (pairRun 480 initPairState [TrackEvent.noteOn 0 60 64 0]).notes ∧
     (pairStep 480 (pairRun 480 initPairState [TrackEvent.noteOn 0 60 64 0])
        (TrackEvent.noteOff 5 61 0)).active
      = (pairRun 480 initPairState [TrackEvent.noteOn 0 60 64 0]).active) ∧
    (∃ n, (pairRun 480 initPairState [TrackEvent.noteOn 0 60 64 0]).notes[0]? = some n ∧
      n.note = 60 ∧ n.channel = 0 ∧
      (∀ j m, 0 < j →
        (pairRun 480 initPairState [TrackEvent.noteOn 0 60 64 0]).notes[j]? = some m →
        ¬(m.note = 60 ∧ m.channel = 0)) ∧
      (pairStep 480 (pairRun 480 initPairState [TrackEvent.noteOn 0 60 64 0])
          (TrackEvent.noteOff 7 60 0)).notes
        = setEnd 0 7 (pairRun 480 initPairState [TrackEvent.noteOn 0 60 64 0]).notes ∧
      (pairStep 480 (pairRun 480 initPairState [TrackEvent.noteOn 0 60 64 0])
          (TrackEvent.noteOff 7 60 0)).active
        = eraseActive (60, 0) (pairRun 480 initPairState [TrackEvent.noteOn 0 60 64 0]).active) :=
  ⟨(c1_theorem 480 [TrackEvent.noteOn 0 60 64 0] 5 61 0).1 (by decide),
   (c1_theorem 480 [TrackEvent.noteOn 0 60 64 0] 7 60 0).2 0 (by decide)⟩
